import Mathlib

/-!
Verification of the `tago` struct-tag library (`tago.go`).

The Go source is shallowly embedded: Go strings become `List Char`, the
`strings` package functions used by the source (`SplitN`, `SplitSeq`,
`TrimSpace`, `Join`) become explicit recursive functions over character
lists, `reflect` type descriptors become an inductive `GoType` together
with a type environment mapping struct names to their field lists, and
the unbounded recursion of `getNested` is made total with an explicit
fuel argument returning `Option` (fuel exhaustion plays the role of
divergence).
-/

set_option autoImplicit false

namespace Tago

/-- Go strings are modelled as lists of characters. -/
abbrev Str := List Char

/-- `unicode.IsSpace` restricted to the Latin-1 space characters Go treats
as white space: tab, newline, vertical tab, form feed, carriage return,
space, next line, no-break space. -/
def goIsSpace (c : Char) : Bool :=
  c = ' ' || c = '\t' || c = '\n' || c = '\r' ||
    c.toNat = 11 || c.toNat = 12 || c.toNat = 133 || c.toNat = 160

/-- `strings.TrimSpace`: remove white space from both ends. -/
def trimSpace (l : Str) : Str :=
  ((l.dropWhile goIsSpace).reverse.dropWhile goIsSpace).reverse

/-- `strings.SplitN(s, sep, 2)` for a one-character separator: the part
before the first occurrence, and (when the separator occurs) the rest. -/
def splitFirst (c : Char) : Str → Str × Option Str
  | [] => ([], none)
  | x :: xs =>
    if x = c then ([], some xs)
    else
      let p := splitFirst c xs
      (x :: p.1, p.2)

/-- `strings.Split` / `strings.SplitSeq` for a one-character separator. -/
def splitOnChar (c : Char) : Str → List Str
  | [] => [[]]
  | x :: xs =>
    if x = c then [] :: splitOnChar c xs
    else
      match splitOnChar c xs with
      | [] => [[x]]
      | d :: ds => (x :: d) :: ds

/-- The normalization `GetFromField` performs on one directive:
`strings.SplitN(d, "=", 2)`, trim each part, rejoin with `"="`. -/
def normalize (d : Str) : Str :=
  match splitFirst '=' d with
  | (k, none) => trimSpace k
  | (k, some v) => trimSpace k ++ '=' :: trimSpace v

/-- `Instruction.Key`: the trimmed part before the first `'='`. -/
def Instruction.Key (i : Str) : Str :=
  trimSpace (splitFirst '=' i).1

/-- `Instruction.Value`: the trimmed part after the first `'='`, or the
literal `"true"` when no `'='` is present. -/
def Instruction.Value (i : Str) : Str :=
  match splitFirst '=' i with
  | (_, some v) => trimSpace v
  | (_, none) => "true".data

/-- The `Instructions` map `map[Instruction][]FieldName`.  A Go map is
modelled as an association list with lookup on the first matching key;
per-key field lists keep their order, exactly as in Go. -/
abbrev Instructions := List (Str × List Str)

/-- Go map indexing: `instructions[ins]` together with the `exists` flag. -/
def lookup? : Instructions → Str → Option (List Str)
  | [], _ => none
  | (k, v) :: rest, key => if k = key then some v else lookup? rest key

/-- The field list under a key, `[]` when the key is absent. -/
def lookupD (t : Instructions) (key : Str) : List Str :=
  (lookup? t key).getD []

/-- The keys of an index. -/
def keys (t : Instructions) : List Str :=
  t.map Prod.fst

/-- Append values to the list stored under `key`, creating the entry when
absent: the common shape of `(*t)[key] = append((*t)[key], v)` preceded
by `(*t)[key] = make(...)` when the key does not exist. -/
def appendAt : Instructions → Str → List Str → Instructions
  | [], key, vs => [(key, vs)]
  | (k, v) :: rest, key, vs =>
    if k = key then (k, v ++ vs) :: rest
    else (k, v) :: appendAt rest key vs

/-- `Instructions.concat`: merge `other` into `t`, adding `pre` in front of
every merged field name (`FieldName.AddPrefix` is plain concatenation). -/
def concat (t other : Instructions) (pre : Str) : Instructions :=
  other.foldl (fun acc kv => appendAt acc kv.1 (kv.2.map (fun v => pre ++ v))) t

/-- A `reflect.Type` descriptor: base (non-struct) types, pointers, slices
and struct types referenced by name (the name stands for
`reflect.Type.String()`; fields are resolved through a `TypeEnv`). -/
inductive GoType where
  | base (name : Str)
  | ptr (t : GoType)
  | slice (t : GoType)
  | strukt (name : Str)
deriving DecidableEq

/-- `reflect.Type.String()`. -/
def typeString : GoType → Str
  | .base n => n
  | .strukt n => n
  | .ptr t => '*' :: typeString t
  | .slice t => '[' :: ']' :: typeString t

/-- `t.Kind() == reflect.Struct`. -/
def isStruct : GoType → Bool
  | .strukt _ => true
  | _ => false

/-- A `reflect.StructField`: declared name, declared type, and the struct
tag as an association from tag identifiers to raw tag strings. -/
structure StructField where
  name : Str
  type : GoType
  tags : List (Str × Str)
deriving DecidableEq

/-- `StructTag.Get`: the raw string under a tag identifier, `""` if absent. -/
def tagGet : List (Str × Str) → Str → Str
  | [], _ => []
  | (k, v) :: rest, key => if k = key then v else tagGet rest key

/-- A type environment resolving struct names to their declared fields. -/
abbrev TypeEnv := List (Str × List StructField)

def lookupEnv : TypeEnv → Str → List StructField
  | [], _ => []
  | (n, fs) :: rest, key => if n = key then fs else lookupEnv rest key

/-- The declared fields of a type: `NumField`/`Field i` enumeration for a
struct type, empty otherwise. -/
def fieldsOf (env : TypeEnv) : GoType → List StructField
  | .strukt n => lookupEnv env n
  | _ => []

/-- `typeToElem`: unwrap one level of pointer, then one level of slice,
then one level of pointer inside the slice. -/
def typeToElem (t : GoType) : GoType :=
  let t1 :=
    match t with
    | .ptr e => e
    | _ => t
  match t1 with
  | .slice e =>
    match e with
    | .ptr e2 => e2
    | _ => e
  | _ => t1

/-- One iteration of the directive loop in `GetFromField`: normalize the
directive, skip it when empty, otherwise record the field name under it. -/
def parseStep (nm : Str) (tags : Instructions) (d : Str) : Instructions :=
  let s := normalize d
  if s = [] then tags else appendAt tags s [nm]

/-- `TaGo.GetFromField`: parse one field's raw tag text into a
single-field index. -/
def GetFromField (tg : Str) (f : StructField) : Instructions :=
  let raw := tagGet f.tags tg
  if raw = [] then []
  else (splitOnChar ';' raw).foldl (parseStep f.name) []

/-- `TaGo.Get`: flat extraction over the unwrapped type's fields. -/
def Get (env : TypeEnv) (tg : Str) (model : GoType) : Instructions :=
  (fieldsOf env (typeToElem model)).foldl
    (fun tags f => concat tags (GetFromField tg f) []) []

/-- The field loop of `TaGo.getNested` at one level: record the field's
own directives under `pre`, and when the unwrapped field type is a struct
whose type string differs from the current type's, merge the recursive
result (computed by `recur`) with no additional path in front. -/
def getNestedFields (tg : Str) (mt : GoType)
    (recur : GoType → Str → Option Instructions) (sep : Str) :
    List StructField → Str → Instructions → Option Instructions
  | [], _, tags => some tags
  | f :: fs, pre, tags =>
    let tags1 := concat tags (GetFromField tg f) pre
    let ft := typeToElem f.type
    if typeString ft ≠ typeString mt ∧ isStruct ft = true then
      match recur ft (pre ++ f.name ++ sep) with
      | none => none
      | some nested => getNestedFields tg mt recur sep fs pre (concat tags1 nested [])
    else
      getNestedFields tg mt recur sep fs pre tags1

/-- `TaGo.getNested`, made total with fuel: `none` models the divergence
that unbounded recursion (an indirect type cycle) would produce in Go. -/
def getNestedAux (env : TypeEnv) (tg sep : Str) : Nat → GoType → Str → Option Instructions
  | 0, _, _ => none
  | fuel + 1, model, pre =>
    let mt := typeToElem model
    getNestedFields tg mt (getNestedAux env tg sep fuel) sep (fieldsOf env mt) pre []

/-- `TaGo.GetNested`: nested extraction starting from the empty path. -/
def GetNested (env : TypeEnv) (tg : Str) (fuel : Nat) (model : GoType) (sep : Str) :
    Option Instructions :=
  getNestedAux env tg sep fuel model []

/-- The body of the `Apply` loop for one `(instruction, action)` pair of
the mapping: when the instruction exists in the index, invoke the action
once per field in list order (recorded on the trace); otherwise nothing. -/
def applyStep {α : Type} (inst : Instructions) (acc : List (α × Str)) (p : Str × α) :
    List (α × Str) :=
  match lookup? inst p.1 with
  | some fields => fields.foldl (fun acc2 f => acc2 ++ [(p.2, f)]) acc
  | none => acc

/-- `TaGo.Apply`, observed through its invocation trace: the list of
(action, field) invocations, in execution order.  The Go map of actions
becomes an association list iterated in list order. -/
def Apply {α : Type} (inst : Instructions) (mapping : List (Str × α)) : List (α × Str) :=
  mapping.foldl (applyStep inst) []

/-- `TaGo.ApplyOne`, observed through the fields its action is invoked on,
in order. -/
def ApplyOne (ins : Str) (inst : Instructions) : List Str :=
  match lookup? inst ins with
  | some fields => fields
  | none => []

/-- `TaGo.Has`: flat extraction followed by a key-membership test. -/
def Has (env : TypeEnv) (tg : Str) (model : GoType) (ins : Str) : Bool :=
  (lookup? (Get env tg model) ins).isSome

/-- A character list whose first character, if any, is not white space. -/
def headOk (l : Str) : Prop :=
  ∀ a, l.head? = some a → goIsSpace a = false

/-- A type descriptor carrying no pointer or slice wrapping of its own. -/
def isUnwrapped : GoType → Bool
  | .ptr _ => false
  | .slice _ => false
  | _ => true

/-- The full path from a traversal root to a directive-declaring field:
`NestedPath env tg sep fuel T ins g` holds when, starting the nested
traversal at type `T` with at least `fuel` recursion levels available,
some chain of enclosing fields `F1, …, Fn` passes the self-reference
guard at every step and reaches a field whose parsed tag contains the
instruction `ins`, and `g` is `F1 ++ sep ++ … ++ Fn ++ sep ++ name`. -/
inductive NestedPath (env : TypeEnv) (tg sep : Str) : Nat → GoType → Str → Str → Prop where
  | here (fuel : Nat) (T : GoType) (fld : StructField) (ins : Str) :
      fld ∈ fieldsOf env (typeToElem T) →
      ins ∈ keys (GetFromField tg fld) →
      NestedPath env tg sep (fuel + 1) T ins fld.name
  | child (fuel : Nat) (T : GoType) (fld : StructField) (ins sub : Str) :
      fld ∈ fieldsOf env (typeToElem T) →
      typeString (typeToElem fld.type) ≠ typeString (typeToElem T) →
      isStruct (typeToElem fld.type) = true →
      NestedPath env tg sep fuel (typeToElem fld.type) ins sub →
      NestedPath env tg sep (fuel + 1) T ins (fld.name ++ sep ++ sub)

/-- The tag identifier of the README examples. -/
def gtag : Str := "gorm2".data

/-- The separator of the README examples. -/
def sepDot : Str := ".".data

/-- The two-level record of the documentation example: `MyModel` with a
tagged string field, an untagged field, and a tagged `NestedModel` field;
`NestedModel` with one tagged field. -/
def exEnv : TypeEnv :=
  [("MyModel".data,
     [⟨"Field1".data, .base "string".data, [(gtag, "preload=true;otherOption=value".data)]⟩,
      ⟨"Field2".data, .base "int".data, []⟩,
      ⟨"Field3".data, .strukt "NestedModel".data, [(gtag, "preload=true".data)]⟩]),
   ("NestedModel".data,
     [⟨"Subfield1".data, .base "string".data, [(gtag, "otherOption=value2".data)]⟩])]

/-- A directly self-referencing record: `Node` has a tagged field whose
type is `Node` itself, plus an ordinary tagged field. -/
def sEnv : TypeEnv :=
  [("Node".data,
     [⟨"Next".data, .strukt "Node".data, [(gtag, "preload".data)]⟩,
      ⟨"Name".data, .base "string".data, [(gtag, "x=1".data)]⟩])]

/-! ### Lemmas about the string primitives -/

theorem mem_of_mem_trimSpace {l : Str} {a : Char} (h : a ∈ trimSpace l) : a ∈ l := by
  unfold trimSpace at h
  rw [List.mem_reverse] at h
  have h1 : a ∈ (l.dropWhile goIsSpace).reverse := List.Sublist.mem h (List.dropWhile_sublist _)
  rw [List.mem_reverse] at h1
  exact List.Sublist.mem h1 (List.dropWhile_sublist _)

theorem trimSpace_eq_nil {l : Str} (h : ∀ a ∈ l, goIsSpace a = true) : trimSpace l = [] := by
  unfold trimSpace
  rw [List.dropWhile_eq_nil_iff.mpr h]
  rfl

theorem headOk_dropWhile (l : Str) : headOk (l.dropWhile goIsSpace) := by
  induction l with
  | nil => intro a ha; simp at ha
  | cons x xs ih =>
    intro a ha
    rw [List.dropWhile_cons] at ha
    by_cases hx : goIsSpace x = true
    · exact ih a (by rw [if_pos hx] at ha; exact ha)
    · rw [if_neg hx] at ha
      simp only [List.head?_cons, Option.some.injEq] at ha
      rw [← ha]
      exact Bool.not_eq_true _ ▸ hx

theorem dropWhile_of_headOk {l : Str} (h : headOk l) : l.dropWhile goIsSpace = l := by
  cases l with
  | nil => rfl
  | cons x xs =>
    rw [List.dropWhile_cons, if_neg]
    rw [h x rfl]
    simp

theorem getLast?_dropWhile (p : Char → Bool) (l : Str) (h : l.dropWhile p ≠ []) :
    (l.dropWhile p).getLast? = l.getLast? := by
  obtain ⟨t, ht⟩ := List.dropWhile_suffix (l := l) p
  conv_rhs => rw [← ht]
  rw [List.getLast?_append]
  cases hg : (l.dropWhile p).getLast? with
  | none => exact absurd (List.getLast?_eq_none_iff.mp hg) h
  | some a => rfl

theorem trimSpace_of_ok {m : Str} (h1 : headOk m) (h2 : headOk m.reverse) :
    trimSpace m = m := by
  unfold trimSpace
  rw [dropWhile_of_headOk h1, dropWhile_of_headOk h2, List.reverse_reverse]

theorem headOk_trimSpace (l : Str) : headOk (trimSpace l) := by
  intro a ha
  unfold trimSpace at ha
  rw [List.head?_reverse] at ha
  by_cases hB : (l.dropWhile goIsSpace).reverse.dropWhile goIsSpace = []
  · rw [hB] at ha; simp at ha
  · rw [getLast?_dropWhile _ _ hB, List.getLast?_reverse] at ha
    exact headOk_dropWhile l a ha

theorem headOk_reverse_trimSpace (l : Str) : headOk (trimSpace l).reverse := by
  intro a ha
  unfold trimSpace at ha
  rw [List.reverse_reverse] at ha
  exact headOk_dropWhile _ a ha

theorem trimSpace_idem (l : Str) : trimSpace (trimSpace l) = trimSpace l :=
  trimSpace_of_ok (headOk_trimSpace l) (headOk_reverse_trimSpace l)

theorem splitFirst_fst_not_mem (c : Char) (l : Str) : c ∉ (splitFirst c l).1 := by
  induction l with
  | nil => simp [splitFirst]
  | cons x xs ih =>
    by_cases hx : x = c
    · simp [splitFirst, hx]
    · simp only [splitFirst, if_neg hx, List.mem_cons]
      intro h
      rcases h with h | h
      · exact hx h.symm
      · exact ih h

theorem splitFirst_of_not_mem {c : Char} {l : Str} (h : c ∉ l) : splitFirst c l = (l, none) := by
  induction l with
  | nil => rfl
  | cons x xs ih =>
    simp only [List.mem_cons, not_or] at h
    have hxc : ¬x = c := fun hx => h.1 hx.symm
    simp only [splitFirst, if_neg hxc, ih h.2]

theorem splitFirst_none_eq {c : Char} {l k : Str} (h : splitFirst c l = (k, none)) :
    k = l ∧ c ∉ l := by
  induction l generalizing k with
  | nil =>
    simp only [splitFirst, Prod.mk.injEq] at h
    simp [← h.1]
  | cons x xs ih =>
    by_cases hx : x = c
    · simp [splitFirst, hx] at h
    · simp only [splitFirst, if_neg hx, Prod.mk.injEq] at h
      obtain ⟨hk, hrest⟩ := h
      have := ih (k := (splitFirst c xs).1) (by rw [← hrest])
      constructor
      · rw [← hk, this.1]
      · simp only [List.mem_cons, not_or]
        exact ⟨fun hc => hx hc.symm, this.2⟩

theorem splitFirst_recon {c : Char} {l k v : Str} (h : splitFirst c l = (k, some v)) :
    l = k ++ c :: v := by
  induction l generalizing k v with
  | nil => simp [splitFirst] at h
  | cons x xs ih =>
    by_cases hx : x = c
    · simp only [splitFirst, if_pos hx, Prod.mk.injEq, Option.some.injEq] at h
      rw [← h.1, ← h.2, hx]
      rfl
    · simp only [splitFirst, if_neg hx, Prod.mk.injEq] at h
      obtain ⟨hk, hrest⟩ := h
      have hxs := ih (k := (splitFirst c xs).1) (v := v) (by rw [← hrest])
      rw [← hk]
      conv_lhs => rw [hxs]
      rfl

theorem splitFirst_append {c : Char} {a : Str} (h : c ∉ a) (b : Str) :
    splitFirst c (a ++ c :: b) = (a, some b) := by
  induction a with
  | nil => simp [splitFirst]
  | cons x xs ih =>
    simp only [List.mem_cons, not_or] at h
    have hxc : ¬x = c := fun hx => h.1 hx.symm
    simp [splitFirst, hxc, ih h.2]

theorem not_mem_of_mem_splitOnChar {c : Char} {l d : Str} (h : d ∈ splitOnChar c l) :
    c ∉ d := by
  induction l generalizing d with
  | nil =>
    simp only [splitOnChar, List.mem_singleton] at h
    simp [h]
  | cons x xs ih =>
    by_cases hx : x = c
    · rw [splitOnChar, if_pos hx, List.mem_cons] at h
      rcases h with h | h
      · simp [h]
      · exact ih h
    · rw [splitOnChar, if_neg hx] at h
      cases hs : splitOnChar c xs with
      | nil =>
        rw [hs] at h
        simp only [List.mem_singleton] at h
        rw [h]
        simp only [List.mem_singleton]
        exact fun hc : c = x => hx hc.symm
      | cons e es =>
        rw [hs, List.mem_cons] at h
        rcases h with h | h
        · rw [h]
          simp only [List.mem_cons, not_or]
          refine ⟨fun hc => hx hc.symm, ?_⟩
          exact ih (d := e) (by rw [hs]; exact List.mem_cons_self _ _)
        · exact ih (d := d) (by rw [hs]; exact List.mem_cons_of_mem _ h)

theorem mem_of_mem_splitOnChar {c : Char} {l d : Str} (hd : d ∈ splitOnChar c l)
    {a : Char} (ha : a ∈ d) : a ∈ l := by
  induction l generalizing d with
  | nil =>
    simp only [splitOnChar, List.mem_singleton] at hd
    rw [hd] at ha
    simp at ha
  | cons x xs ih =>
    by_cases hx : x = c
    · rw [splitOnChar, if_pos hx, List.mem_cons] at hd
      rcases hd with hd | hd
      · rw [hd] at ha; simp at ha
      · exact List.mem_cons_of_mem _ (ih hd ha)
    · rw [splitOnChar, if_neg hx] at hd
      cases hs : splitOnChar c xs with
      | nil =>
        rw [hs] at hd
        simp only [List.mem_singleton] at hd
        rw [hd] at ha
        simp only [List.mem_singleton] at ha
        rw [ha]
        exact List.mem_cons_self _ _
      | cons e es =>
        rw [hs, List.mem_cons] at hd
        rcases hd with hd | hd
        · rw [hd, List.mem_cons] at ha
          rcases ha with ha | ha
          · rw [ha]; exact List.mem_cons_self _ _
          · exact List.mem_cons_of_mem _ (ih (d := e) (by rw [hs]; exact List.mem_cons_self _ _) ha)
        · exact List.mem_cons_of_mem _ (ih (d := d) (by rw [hs]; exact List.mem_cons_of_mem _ hd) ha)

theorem splitOnChar_of_not_mem {c : Char} {l : Str} (h : c ∉ l) : splitOnChar c l = [l] := by
  induction l with
  | nil => rfl
  | cons x xs ih =>
    simp only [List.mem_cons, not_or] at h
    rw [splitOnChar, if_neg (fun hx => h.1 hx.symm), ih h.2]

theorem mem_normalize {d : Str} {a : Char} (h : a ∈ normalize d) : a ∈ d ∨ a = '=' := by
  unfold normalize at h
  cases hs : splitFirst '=' d with
  | mk k vo =>
    rw [hs] at h
    cases vo with
    | none =>
      have := splitFirst_none_eq hs
      rw [← this.1]
      exact Or.inl (mem_of_mem_trimSpace h)
    | some v =>
      have hrec := splitFirst_recon hs
      simp only [List.mem_append, List.mem_cons] at h
      rcases h with h | h | h
      · exact Or.inl (hrec ▸ List.mem_append_left _ (mem_of_mem_trimSpace h))
      · exact Or.inr h
      · refine Or.inl (hrec ▸ List.mem_append_right _ ?_)
        exact List.mem_cons_of_mem _ (mem_of_mem_trimSpace h)

theorem normalize_idem (d : Str) : normalize (normalize d) = normalize d := by
  cases hs : splitFirst '=' d with
  | mk k vo =>
    cases vo with
    | none =>
      obtain ⟨hk, hmem⟩ := splitFirst_none_eq hs
      have h1 : normalize d = trimSpace d := by rw [normalize, hs, hk]
      have h2 : '=' ∉ trimSpace d := fun hc => hmem (mem_of_mem_trimSpace hc)
      rw [h1, normalize, splitFirst_of_not_mem h2]
      exact trimSpace_idem d
    | some v =>
      have hk : '=' ∉ trimSpace k := by
        intro hc
        exact splitFirst_fst_not_mem '=' d (hs ▸ mem_of_mem_trimSpace hc)
      have h1 : normalize d = trimSpace k ++ '=' :: trimSpace v := by rw [normalize, hs]
      rw [h1, normalize, splitFirst_append hk]
      show trimSpace (trimSpace k) ++ '=' :: trimSpace (trimSpace v) = _
      rw [trimSpace_idem, trimSpace_idem]

theorem key_not_mem_eq (i : Str) : '=' ∉ Instruction.Key i := by
  intro h
  exact splitFirst_fst_not_mem '=' i (mem_of_mem_trimSpace h)

theorem value_default_true {d : Str} (h : '=' ∉ d) :
    Instruction.Value (normalize d) = "true".data := by
  have h1 : normalize d = trimSpace d := by rw [normalize, splitFirst_of_not_mem h]
  have h2 : '=' ∉ trimSpace d := fun hc => h (mem_of_mem_trimSpace hc)
  rw [h1, Instruction.Value, splitFirst_of_not_mem h2]

theorem value_after_eq {d k v : Str} (h : splitFirst '=' d = (k, some v)) :
    Instruction.Value (normalize d) = trimSpace v := by
  have hk : '=' ∉ trimSpace k := by
    intro hc
    exact splitFirst_fst_not_mem '=' d (h ▸ mem_of_mem_trimSpace hc)
  have h1 : normalize d = trimSpace k ++ '=' :: trimSpace v := by rw [normalize, h]
  rw [h1, Instruction.Value, splitFirst_append hk]
  exact trimSpace_idem v

/-! ### Lemmas about the instruction index -/

theorem lookup?_mem {t : Instructions} {k : Str} {v : List Str}
    (h : lookup? t k = some v) : (k, v) ∈ t := by
  induction t with
  | nil => simp [lookup?] at h
  | cons kv rest ih =>
    obtain ⟨k0, v0⟩ := kv
    by_cases hk : k0 = k
    · rw [lookup?, if_pos hk] at h
      simp only [Option.some.injEq] at h
      rw [hk, h]
      exact List.mem_cons_self _ _
    · rw [lookup?, if_neg hk] at h
      exact List.mem_cons_of_mem _ (ih h)

theorem mem_keys_iff_lookup {t : Instructions} {k : Str} :
    k ∈ keys t ↔ (lookup? t k).isSome := by
  induction t with
  | nil => simp [keys, lookup?]
  | cons kv rest ih =>
    obtain ⟨k0, v0⟩ := kv
    by_cases hk : k0 = k
    · simp [keys, lookup?, hk]
    · simp only [keys, List.map_cons, List.mem_cons, lookup?, if_neg hk]
      unfold keys at ih
      rw [ih]
      constructor
      · intro h
        rcases h with h | h
        · exact absurd h.symm hk
        · exact h
      · exact Or.inr

theorem mem_lookupD_mem_keys {t : Instructions} {ins f : Str}
    (h : f ∈ lookupD t ins) : ins ∈ keys t := by
  rw [mem_keys_iff_lookup]
  unfold lookupD at h
  cases hl : lookup? t ins with
  | none => rw [hl] at h; simp at h
  | some l => simp [hl]

theorem lookup?_appendAt (t : Instructions) (k k' : Str) (vs : List Str) :
    lookup? (appendAt t k vs) k' =
      if k' = k then some (lookupD t k ++ vs) else lookup? t k' := by
  induction t with
  | nil =>
    by_cases hk : k' = k
    · subst hk
      simp [appendAt, lookup?, lookupD]
    · have hk2 : ¬k = k' := fun h => hk h.symm
      simp [appendAt, lookup?, hk, hk2]
  | cons kv rest ih =>
    obtain ⟨k0, v0⟩ := kv
    by_cases h0 : k0 = k
    · subst h0
      by_cases hk : k' = k0
      · subst hk
        simp [appendAt, lookup?, lookupD]
      · have hk2 : ¬k0 = k' := fun h => hk h.symm
        simp [appendAt, lookup?, lookupD, hk, hk2]
    · by_cases hk : k' = k0
      · subst hk
        have hne : ¬k' = k := fun h => h0 (h ▸ rfl)
        simp [appendAt, lookup?, h0, hne]
      · simp only [appendAt, if_neg h0, lookup?, if_neg (fun h : k0 = k' => hk h.symm), ih]
        by_cases hkk : k' = k
        · simp only [if_pos hkk, lookupD, lookup?, if_neg (fun h : k0 = k => h0 h)]
        · simp [hkk]

theorem lookupD_appendAt (t : Instructions) (k k' : Str) (vs : List Str) :
    lookupD (appendAt t k vs) k' =
      if k' = k then lookupD t k ++ vs else lookupD t k' := by
  by_cases hk : k' = k
  · simp [lookupD, lookup?_appendAt, hk]
  · simp [lookupD, lookup?_appendAt, hk]

theorem mem_keys_appendAt {t : Instructions} {k k' : Str} {vs : List Str} :
    k' ∈ keys (appendAt t k vs) ↔ k' ∈ keys t ∨ k' = k := by
  rw [mem_keys_iff_lookup, lookup?_appendAt, mem_keys_iff_lookup]
  by_cases hk : k' = k
  · simp [hk]
  · simp [hk]

theorem appendAt_entries_ne {t : Instructions} {k : Str} {vs : List Str}
    (hvs : vs ≠ []) (ht : ∀ kv ∈ t, kv.2 ≠ []) :
    ∀ kv ∈ appendAt t k vs, kv.2 ≠ [] := by
  induction t with
  | nil =>
    intro kv hkv
    simp only [appendAt, List.mem_singleton] at hkv
    rw [hkv]
    exact hvs
  | cons kv0 rest ih =>
    obtain ⟨k0, v0⟩ := kv0
    intro kv hkv
    by_cases h0 : k0 = k
    · rw [appendAt, if_pos h0, List.mem_cons] at hkv
      rcases hkv with hkv | hkv
      · rw [hkv]
        exact List.append_ne_nil_of_right_ne_nil _ hvs
      · exact ht kv (List.mem_cons_of_mem _ hkv)
    · rw [appendAt, if_neg h0, List.mem_cons] at hkv
      rcases hkv with hkv | hkv
      · rw [hkv]
        exact ht _ (List.mem_cons_self _ _)
      · exact ih (fun kv h => ht kv (List.mem_cons_of_mem _ h)) kv hkv

theorem concat_nil_other (t : Instructions) (pre : Str) : concat t [] pre = t := rfl

theorem concat_cons (t : Instructions) (kv : Str × List Str) (other : Instructions)
    (pre : Str) :
    concat t (kv :: other) pre =
      concat (appendAt t kv.1 (kv.2.map (fun v => pre ++ v))) other pre := rfl

theorem lookupD_concat_mem {other : Instructions} {t : Instructions} {pre ins f : Str}
    (h : f ∈ lookupD (concat t other pre) ins) :
    f ∈ lookupD t ins ∨
      ∃ g, (∃ kv, kv ∈ other ∧ kv.1 = ins ∧ g ∈ kv.2) ∧ f = pre ++ g := by
  induction other generalizing t with
  | nil => exact Or.inl h
  | cons kv rest ih =>
    rw [concat_cons] at h
    rcases ih h with h1 | h1
    · rw [lookupD_appendAt] at h1
      by_cases hk : ins = kv.1
      · rw [if_pos hk, List.mem_append] at h1
        rcases h1 with h1 | h1
        · exact Or.inl (by rw [hk]; exact h1)
        · obtain ⟨g, hg, hfg⟩ := List.mem_map.mp h1
          exact Or.inr ⟨g, ⟨kv, List.mem_cons_self _ _, hk.symm, hg⟩, hfg.symm⟩
      · rw [if_neg hk] at h1
        exact Or.inl h1
    · obtain ⟨g, ⟨kv', hkv', hk', hg⟩, hfg⟩ := h1
      exact Or.inr ⟨g, ⟨kv', List.mem_cons_of_mem _ hkv', hk', hg⟩, hfg⟩

theorem concat_entries_ne {other t : Instructions} {pre : Str}
    (ht : ∀ kv ∈ t, kv.2 ≠ []) (ho : ∀ kv ∈ other, kv.2 ≠ []) :
    ∀ kv ∈ concat t other pre, kv.2 ≠ [] := by
  induction other generalizing t with
  | nil => exact ht
  | cons kv0 rest ih =>
    rw [concat_cons]
    refine ih (appendAt_entries_ne ?_ ht) (fun kv h => ho kv (List.mem_cons_of_mem _ h))
    rw [Ne, List.map_eq_nil_iff]
    exact ho kv0 (List.mem_cons_self _ _)

/-! ### Lemmas about the tag parser -/

theorem keys_parseStep_mono {nm : Str} {t : Instructions} {d ins : Str}
    (h : ins ∈ keys t) : ins ∈ keys (parseStep nm t d) := by
  unfold parseStep
  by_cases hs : normalize d = []
  · simpa [hs]
  · simp only [if_neg hs]
    exact mem_keys_appendAt.mpr (Or.inl h)

theorem keys_parseFold_mono {nm : Str} (ds : List Str) {t : Instructions} {ins : Str}
    (h : ins ∈ keys t) : ins ∈ keys (ds.foldl (parseStep nm) t) := by
  induction ds generalizing t with
  | nil => exact h
  | cons d rest ih => exact ih (keys_parseStep_mono h)

theorem parseFold_keys_sound {nm : Str} {ds : List Str} {t : Instructions} {ins : Str}
    (h : ins ∈ keys (ds.foldl (parseStep nm) t)) :
    ins ∈ keys t ∨ ∃ d, d ∈ ds ∧ ins = normalize d ∧ normalize d ≠ [] := by
  induction ds generalizing t with
  | nil => exact Or.inl h
  | cons d rest ih =>
    rcases ih h with h1 | h1
    · unfold parseStep at h1
      by_cases hs : normalize d = []
      · rw [if_pos hs] at h1
        exact Or.inl h1
      · rw [if_neg hs] at h1
        rcases mem_keys_appendAt.mp h1 with h2 | h2
        · exact Or.inl h2
        · exact Or.inr ⟨d, List.mem_cons_self _ _, h2, hs⟩
    · obtain ⟨d', hd', he, hne⟩ := h1
      exact Or.inr ⟨d', List.mem_cons_of_mem _ hd', he, hne⟩

theorem parseFold_keys_complete {nm : Str} {ds : List Str} {t : Instructions} {d : Str}
    (hd : d ∈ ds) (hne : normalize d ≠ []) :
    normalize d ∈ keys (ds.foldl (parseStep nm) t) := by
  induction ds generalizing t with
  | nil => simp at hd
  | cons e rest ih =>
    rcases List.mem_cons.mp hd with hd1 | hd1
    · subst hd1
      refine keys_parseFold_mono rest ?_
      unfold parseStep
      rw [if_neg hne]
      exact mem_keys_appendAt.mpr (Or.inr rfl)
    · exact ih hd1

theorem parseFold_values {nm : Str} {ds : List Str} {t : Instructions} {ins f : Str}
    (h : f ∈ lookupD (ds.foldl (parseStep nm) t) ins) :
    f ∈ lookupD t ins ∨ f = nm := by
  induction ds generalizing t with
  | nil => exact Or.inl h
  | cons d rest ih =>
    rcases ih h with h1 | h1
    · unfold parseStep at h1
      by_cases hs : normalize d = []
      · rw [if_pos hs] at h1
        exact Or.inl h1
      · rw [if_neg hs, lookupD_appendAt] at h1
        by_cases hk : ins = normalize d
        · rw [if_pos hk, List.mem_append] at h1
          rcases h1 with h1 | h1
          · exact Or.inl (by rw [hk]; exact h1)
          · exact Or.inr (List.mem_singleton.mp h1)
        · rw [if_neg hk] at h1
          exact Or.inl h1
    · exact Or.inr h1

theorem parseFold_entries_ne {nm : Str} {ds : List Str} {t : Instructions}
    (ht : ∀ kv ∈ t, kv.2 ≠ []) :
    ∀ kv ∈ ds.foldl (parseStep nm) t, kv.2 ≠ [] := by
  induction ds generalizing t with
  | nil => exact ht
  | cons d rest ih =>
    refine ih ?_
    unfold parseStep
    by_cases hs : normalize d = []
    · rw [if_pos hs]
      exact ht
    · rw [if_neg hs]
      exact appendAt_entries_ne (by simp) ht

theorem GetFromField_keys_sound {tg : Str} {fld : StructField} {ins : Str}
    (h : ins ∈ keys (GetFromField tg fld)) :
    ∃ d, d ∈ splitOnChar ';' (tagGet fld.tags tg) ∧ ins = normalize d ∧ ins ≠ [] := by
  unfold GetFromField at h
  by_cases hr : tagGet fld.tags tg = []
  · rw [if_pos hr] at h
    simp [keys] at h
  · rw [if_neg hr] at h
    rcases parseFold_keys_sound h with h1 | h1
    · simp [keys] at h1
    · obtain ⟨d, hd, he, hne⟩ := h1
      exact ⟨d, hd, he, by rw [he]; exact hne⟩

theorem GetFromField_keys_complete {tg : Str} {fld : StructField} {d : Str}
    (hd : d ∈ splitOnChar ';' (tagGet fld.tags tg)) (hne : normalize d ≠ []) :
    normalize d ∈ keys (GetFromField tg fld) := by
  unfold GetFromField
  by_cases hr : tagGet fld.tags tg = []
  · rw [hr] at hd
    simp only [splitOnChar, List.mem_singleton] at hd
    subst hd
    exact absurd rfl hne
  · rw [if_neg hr]
    exact parseFold_keys_complete hd hne

theorem GetFromField_entries_ne (tg : Str) (fld : StructField) :
    ∀ kv ∈ GetFromField tg fld, kv.2 ≠ [] := by
  unfold GetFromField
  by_cases hr : tagGet fld.tags tg = []
  · rw [if_pos hr]
    intro kv hkv
    simp at hkv
  · rw [if_neg hr]
    exact parseFold_entries_ne (by intro kv hkv; simp at hkv)

theorem GetFromField_values {tg : Str} {fld : StructField} {ins f : Str}
    (h : f ∈ lookupD (GetFromField tg fld) ins) :
    f = fld.name ∧ ins ∈ keys (GetFromField tg fld) := by
  refine ⟨?_, mem_lookupD_mem_keys h⟩
  unfold GetFromField at h
  by_cases hr : tagGet fld.tags tg = []
  · rw [if_pos hr] at h
    simp [lookupD, lookup?] at h
  · rw [if_neg hr] at h
    rcases parseFold_values h with h1 | h1
    · simp [lookupD, lookup?] at h1
    · exact h1

/-! ### Entry-level provenance lemmas for the index builder -/

theorem appendAt_entries_mem {t : Instructions} {k : Str} {vs : List Str}
    {kv : Str × List Str} (h : kv ∈ appendAt t k vs) :
    ∀ f ∈ kv.2, (∃ kv', kv' ∈ t ∧ kv'.1 = kv.1 ∧ f ∈ kv'.2) ∨ (kv.1 = k ∧ f ∈ vs) := by
  induction t with
  | nil =>
    intro f hf
    simp only [appendAt, List.mem_singleton] at h
    rw [h] at hf ⊢
    exact Or.inr ⟨rfl, hf⟩
  | cons kv0 rest ih =>
    obtain ⟨k0, v0⟩ := kv0
    intro f hf
    by_cases h0 : k0 = k
    · rw [appendAt, if_pos h0, List.mem_cons] at h
      rcases h with h | h
      · rw [h] at hf ⊢
        rcases List.mem_append.mp hf with hf1 | hf1
        · exact Or.inl ⟨(k0, v0), List.mem_cons_self _ _, rfl, hf1⟩
        · exact Or.inr ⟨h0, hf1⟩
      · exact Or.inl ⟨kv, List.mem_cons_of_mem _ h, rfl, hf⟩
    · rw [appendAt, if_neg h0, List.mem_cons] at h
      rcases h with h | h
      · rw [h] at hf ⊢
        exact Or.inl ⟨(k0, v0), List.mem_cons_self _ _, rfl, hf⟩
      · rcases ih h f hf with h1 | h1
        · obtain ⟨kv', hkv', he, hfm⟩ := h1
          exact Or.inl ⟨kv', List.mem_cons_of_mem _ hkv', he, hfm⟩
        · exact Or.inr h1

theorem concat_entries_mem {other t : Instructions} {pre : Str}
    {kv : Str × List Str} (h : kv ∈ concat t other pre) :
    ∀ f ∈ kv.2,
      (∃ kv', kv' ∈ t ∧ kv'.1 = kv.1 ∧ f ∈ kv'.2) ∨
        ∃ g, (∃ kv', kv' ∈ other ∧ kv'.1 = kv.1 ∧ g ∈ kv'.2) ∧ f = pre ++ g := by
  induction other generalizing t with
  | nil => exact fun f hf => Or.inl ⟨kv, h, rfl, hf⟩
  | cons kv0 rest ih =>
    intro f hf
    rw [concat_cons] at h
    rcases ih h f hf with h1 | h1
    · obtain ⟨kv', hkv', he, hfm⟩ := h1
      rcases appendAt_entries_mem hkv' f hfm with h2 | h2
      · obtain ⟨kv'', hkv'', he', hfm'⟩ := h2
        exact Or.inl ⟨kv'', hkv'', by rw [he', he], hfm'⟩
      · obtain ⟨he', hfm'⟩ := h2
        obtain ⟨g, hg, hfg⟩ := List.mem_map.mp hfm'
        refine Or.inr ⟨g, ⟨kv0, List.mem_cons_self _ _, ?_, hg⟩, hfg.symm⟩
        rw [← he', he]
    · obtain ⟨g, ⟨kv', hkv', he, hg⟩, hfg⟩ := h1
      exact Or.inr ⟨g, ⟨kv', List.mem_cons_of_mem _ hkv', he, hg⟩, hfg⟩

theorem GetFromField_entries_values {tg : Str} {fld : StructField}
    {kv : Str × List Str} (h : kv ∈ GetFromField tg fld) :
    ∀ g ∈ kv.2, g = fld.name := by
  have aux : ∀ (ds : List Str) (t : Instructions),
      (∀ kv' ∈ t, ∀ g ∈ kv'.2, g = fld.name) →
      ∀ kv' ∈ ds.foldl (parseStep fld.name) t, ∀ g ∈ kv'.2, g = fld.name := by
    intro ds
    induction ds with
    | nil => exact fun t ht => ht
    | cons d rest ih =>
      intro t ht
      refine ih _ ?_
      intro kv' hkv' g hg
      unfold parseStep at hkv'
      by_cases hs : normalize d = []
      · rw [if_pos hs] at hkv'
        exact ht kv' hkv' g hg
      · rw [if_neg hs] at hkv'
        rcases appendAt_entries_mem hkv' g hg with h1 | h1
        · obtain ⟨kv'', hkv'', _, hgm⟩ := h1
          exact ht kv'' hkv'' g hgm
        · exact List.mem_singleton.mp h1.2
  unfold GetFromField at h
  by_cases hr : tagGet fld.tags tg = []
  · rw [if_pos hr] at h
    simp at h
  · rw [if_neg hr] at h
    exact aux _ [] (by intro kv' hkv'; simp at hkv') kv h

theorem getNestedFields_no_recursion {tg sep : Str} {mt : GoType}
    {recur : GoType → Str → Option Instructions} {fs : List StructField}
    (hguard : ∀ f ∈ fs,
      ¬(typeString (typeToElem f.type) ≠ typeString mt ∧ isStruct (typeToElem f.type) = true)) :
    ∀ (pre : Str) (tags : Instructions),
      getNestedFields tg mt recur sep fs pre tags =
        some (fs.foldl (fun t f => concat t (GetFromField tg f) pre) tags) := by
  induction fs with
  | nil => intro pre tags; rfl
  | cons f rest ih =>
    intro pre tags
    simp only [getNestedFields]
    rw [if_neg (hguard f (List.mem_cons_self _ _))]
    exact ih (fun g hg => hguard g (List.mem_cons_of_mem _ hg)) pre
      (concat tags (GetFromField tg f) pre)

theorem getNestedFields_mem {tg sep : Str} {mt : GoType}
    {recur : GoType → Str → Option Instructions} :
    ∀ (fs : List StructField) (pre : Str) (tags res : Instructions),
      getNestedFields tg mt recur sep fs pre tags = some res →
      ∀ (kv : Str × List Str), kv ∈ res → ∀ f ∈ kv.2,
        (∃ kv', kv' ∈ tags ∧ kv'.1 = kv.1 ∧ f ∈ kv'.2)
        ∨ (∃ fld, fld ∈ fs ∧ kv.1 ∈ keys (GetFromField tg fld) ∧ f = pre ++ fld.name)
        ∨ (∃ fld res', fld ∈ fs
             ∧ typeString (typeToElem fld.type) ≠ typeString mt
             ∧ isStruct (typeToElem fld.type) = true
             ∧ recur (typeToElem fld.type) (pre ++ fld.name ++ sep) = some res'
             ∧ ∃ kv', kv' ∈ res' ∧ kv'.1 = kv.1 ∧ f ∈ kv'.2) := by
  intro fs
  induction fs with
  | nil =>
    intro pre tags res h kv hkv f hf
    simp only [getNestedFields, Option.some.injEq] at h
    rw [← h] at hkv
    exact Or.inl ⟨kv, hkv, rfl, hf⟩
  | cons fld rest ih =>
    intro pre tags res h kv hkv f hf
    simp only [getNestedFields] at h
    by_cases hc : typeString (typeToElem fld.type) ≠ typeString mt ∧
        isStruct (typeToElem fld.type) = true
    · rw [if_pos hc] at h
      cases hrec : recur (typeToElem fld.type) (pre ++ fld.name ++ sep) with
      | none => rw [hrec] at h; simp at h
      | some nested =>
        rw [hrec] at h
        rcases ih pre _ res h kv hkv f hf with h1 | h1 | h1
        · obtain ⟨kv', hkv', he, hfm⟩ := h1
          rcases concat_entries_mem hkv' f hfm with h2 | h2
          · obtain ⟨kv'', hkv'', he', hfm'⟩ := h2
            rcases concat_entries_mem hkv'' f hfm' with h3 | h3
            · obtain ⟨kv3, hkv3, he3, hfm3⟩ := h3
              exact Or.inl ⟨kv3, hkv3, by rw [he3, he', he], hfm3⟩
            · obtain ⟨g, ⟨kv3, hkv3, he3, hg⟩, hfg⟩ := h3
              refine Or.inr (Or.inl ⟨fld, List.mem_cons_self _ _, ?_, ?_⟩)
              · rw [← he, ← he', ← he3]
                exact List.mem_map_of_mem Prod.fst hkv3
              · rw [hfg, GetFromField_entries_values hkv3 g hg]
          · obtain ⟨g, ⟨kv'', hkv'', he', hg⟩, hfg⟩ := h2
            rw [List.nil_append] at hfg
            refine Or.inr (Or.inr ⟨fld, nested, List.mem_cons_self _ _, hc.1, hc.2, hrec,
              kv'', hkv'', by rw [he', he], ?_⟩)
            rw [hfg]
            exact hg
        · obtain ⟨fld', hfld', hkeys, hfe⟩ := h1
          exact Or.inr (Or.inl ⟨fld', List.mem_cons_of_mem _ hfld', hkeys, hfe⟩)
        · obtain ⟨fld', res', hfld', hne', hst', hrec', hkv'⟩ := h1
          exact Or.inr (Or.inr ⟨fld', res', List.mem_cons_of_mem _ hfld', hne', hst', hrec', hkv'⟩)
    · rw [if_neg hc] at h
      rcases ih pre _ res h kv hkv f hf with h1 | h1 | h1
      · obtain ⟨kv', hkv', he, hfm⟩ := h1
        rcases concat_entries_mem hkv' f hfm with h2 | h2
        · obtain ⟨kv'', hkv'', he', hfm'⟩ := h2
          exact Or.inl ⟨kv'', hkv'', by rw [he', he], hfm'⟩
        · obtain ⟨g, ⟨kv'', hkv'', he', hg⟩, hfg⟩ := h2
          refine Or.inr (Or.inl ⟨fld, List.mem_cons_self _ _, ?_, ?_⟩)
          · rw [← he, ← he']
            exact List.mem_map_of_mem Prod.fst hkv''
          · rw [hfg, GetFromField_entries_values hkv'' g hg]
      · obtain ⟨fld', hfld', hkeys, hfe⟩ := h1
        exact Or.inr (Or.inl ⟨fld', List.mem_cons_of_mem _ hfld', hkeys, hfe⟩)
      · obtain ⟨fld', res', hfld', hne', hst', hrec', hkv'⟩ := h1
        exact Or.inr (Or.inr ⟨fld', res', List.mem_cons_of_mem _ hfld', hne', hst', hrec', hkv'⟩)

theorem getNestedFields_entries_ne {tg sep : Str} {mt : GoType}
    {recur : GoType → Str → Option Instructions}
    (hrec : ∀ t p res', recur t p = some res' → ∀ kv ∈ res', kv.2 ≠ []) :
    ∀ (fs : List StructField) (pre : Str) (tags res : Instructions),
      (∀ kv ∈ tags, kv.2 ≠ []) →
      getNestedFields tg mt recur sep fs pre tags = some res →
      ∀ kv ∈ res, kv.2 ≠ [] := by
  intro fs
  induction fs with
  | nil =>
    intro pre tags res ht h
    simp only [getNestedFields, Option.some.injEq] at h
    rw [← h]
    exact ht
  | cons fld rest ih =>
    intro pre tags res ht h
    simp only [getNestedFields] at h
    by_cases hc : typeString (typeToElem fld.type) ≠ typeString mt ∧
        isStruct (typeToElem fld.type) = true
    · rw [if_pos hc] at h
      cases hrec2 : recur (typeToElem fld.type) (pre ++ fld.name ++ sep) with
      | none => rw [hrec2] at h; simp at h
      | some nested =>
        rw [hrec2] at h
        refine ih pre _ res ?_ h
        exact concat_entries_ne
          (concat_entries_ne ht (GetFromField_entries_ne tg fld))
          (hrec _ _ _ hrec2)
    · rw [if_neg hc] at h
      exact ih pre _ res (concat_entries_ne ht (GetFromField_entries_ne tg fld)) h

theorem getFold_entries_ne (tg : Str) (pre : Str) :
    ∀ (fs : List StructField) (t : Instructions), (∀ kv ∈ t, kv.2 ≠ []) →
      ∀ kv ∈ fs.foldl (fun tags f => concat tags (GetFromField tg f) pre) t, kv.2 ≠ [] := by
  intro fs
  induction fs with
  | nil => exact fun t ht => ht
  | cons f rest ih =>
    intro t ht
    exact ih _ (concat_entries_ne ht (GetFromField_entries_ne tg f))

theorem Get_entries_ne (env : TypeEnv) (tg : Str) (model : GoType) :
    ∀ kv ∈ Get env tg model, kv.2 ≠ [] := by
  unfold Get
  exact getFold_entries_ne tg [] _ [] (by intro kv hkv; simp at hkv)

theorem getNestedAux_entries_ne (env : TypeEnv) (tg sep : Str) :
    ∀ (fuel : Nat) (model : GoType) (pre : Str) (res : Instructions),
      getNestedAux env tg sep fuel model pre = some res →
      ∀ kv ∈ res, kv.2 ≠ [] := by
  intro fuel
  induction fuel with
  | zero => intro model pre res h; simp [getNestedAux] at h
  | succ n ih =>
    intro model pre res h
    simp only [getNestedAux] at h
    exact getNestedFields_entries_ne (fun t p res' h' => ih t p res' h') _ pre [] res
      (by intro kv hkv; simp at hkv) h

/-! ### Lemmas about the dispatcher -/

theorem applyInner_eq {α : Type} (act : α) (fields : List Str) (acc : List (α × Str)) :
    fields.foldl (fun acc2 f => acc2 ++ [(act, f)]) acc =
      acc ++ fields.map (fun f => (act, f)) := by
  induction fields generalizing acc with
  | nil => simp
  | cons f fs ih => simp [ih]

theorem applyStep_eq {α : Type} (inst : Instructions) (acc : List (α × Str)) (p : Str × α) :
    applyStep inst acc p = acc ++ (ApplyOne p.1 inst).map (fun f => (p.2, f)) := by
  unfold applyStep ApplyOne
  cases hl : lookup? inst p.1 with
  | none => simp
  | some fields => simp [applyInner_eq]

theorem applyFold_eq {α : Type} (inst : Instructions) (mapping : List (Str × α)) :
    ∀ acc, mapping.foldl (applyStep inst) acc =
      acc ++ (mapping.map (fun p => (ApplyOne p.1 inst).map (fun f => (p.2, f)))).flatten := by
  induction mapping with
  | nil => intro acc; simp
  | cons p ps ih =>
    intro acc
    rw [List.foldl_cons, ih, applyStep_eq]
    simp

/-- A helper single-tag parse shape: a field whose tag association holds
exactly the configured identifier. -/
theorem GetFromField_single_tag (tg nm : Str) (ty : GoType) (raw : Str) :
    GetFromField tg ⟨nm, ty, [(tg, raw)]⟩ =
      if raw = [] then [] else (splitOnChar ';' raw).foldl (parseStep nm) [] := by
  unfold GetFromField
  simp [tagGet]

theorem parseFold_all_empty {nm : Str} {ds : List Str} {t : Instructions}
    (h : ∀ d ∈ ds, normalize d = []) : ds.foldl (parseStep nm) t = t := by
  induction ds generalizing t with
  | nil => rfl
  | cons d rest ih =>
    rw [List.foldl_cons]
    have hd : parseStep nm t d = t := by
      unfold parseStep
      rw [if_pos (h d (List.mem_cons_self _ _))]
    rw [hd]
    exact ih (fun e he => h e (List.mem_cons_of_mem _ he))

/-! ### The claim theorems -/

/-- C1: every field name stored under an instruction by a successful
nested extraction carries the full prefixed path from the traversal root:
it is the current prefix followed by the chain
`F1 ++ sep ++ … ++ Fn ++ sep ++ name` of enclosing field names reaching
the declaring field, the chain being produced by recursing with prefix
`pre ++ fieldName ++ sep` and merging the recursive result with no
additional prefix. -/
theorem getNested_paths_fully_prefixed :
    ∀ (env : TypeEnv) (tg sep : Str) (fuel : Nat) (T : GoType) (pre : Str)
      (res : Instructions),
      getNestedAux env tg sep fuel T pre = some res →
      ∀ kv ∈ res, ∀ f ∈ kv.2,
        ∃ g, f = pre ++ g ∧ NestedPath env tg sep fuel T kv.1 g := by
  intro env tg sep fuel
  induction fuel with
  | zero => intro T pre res h; simp [getNestedAux] at h
  | succ n ih =>
    intro T pre res h kv hkv f hf
    simp only [getNestedAux] at h
    rcases getNestedFields_mem _ pre [] res h kv hkv f hf with h1 | h1 | h1
    · obtain ⟨kv', hkv', _, _⟩ := h1
      simp at hkv'
    · obtain ⟨fld, hfld, hkeys, hfe⟩ := h1
      exact ⟨fld.name, hfe, NestedPath.here n T fld kv.1 hfld hkeys⟩
    · obtain ⟨fld, res', hfld, hne, hst, hrec, kv', hkv', he, hfm⟩ := h1
      obtain ⟨g, hg, hp⟩ :=
        ih (typeToElem fld.type) (pre ++ fld.name ++ sep) res' hrec kv' hkv' f hfm
      refine ⟨fld.name ++ sep ++ g, ?_, ?_⟩
      · rw [hg]
        simp [List.append_assoc]
      · rw [← he]
        exact NestedPath.child n T fld kv'.1 g hfld hne hst hp

theorem getNested_paths_fully_prefixed_witness :
    NestedPath exEnv gtag sepDot 2 (.strukt "MyModel".data)
      "otherOption=value2".data "Field3.Subfield1".data := by
  obtain ⟨g, hg, hp⟩ :=
    getNested_paths_fully_prefixed exEnv gtag sepDot 2 (.strukt "MyModel".data) []
      [("preload=true".data, ["Field1".data, "Field3".data]),
       ("otherOption=value".data, ["Field1".data]),
       ("otherOption=value2".data, ["Field3.Subfield1".data])]
      (by decide)
      ("otherOption=value2".data, ["Field3.Subfield1".data]) (by decide)
      "Field3.Subfield1".data (by decide)
  rw [List.nil_append] at hg
  rw [hg]
  exact hp

/-- C2: when every structured nested field of a record unwraps to the
type currently being traversed (direct self-reference), nested extraction
succeeds at any positive fuel — no infinite recursion — and returns
exactly the flat result: only the top-level fields' own directives, the
self-referencing fields not being recursed into. -/
theorem getNested_self_reference_terminates :
    ∀ (env : TypeEnv) (tg sep : Str) (T : GoType) (fuel : Nat),
      (∀ fld ∈ fieldsOf env (typeToElem T), isStruct (typeToElem fld.type) = true →
        typeString (typeToElem fld.type) = typeString (typeToElem T)) →
      getNestedAux env tg sep (fuel + 1) T [] = some (Get env tg T) := by
  intro env tg sep T fuel hself
  simp only [getNestedAux]
  rw [getNestedFields_no_recursion]
  · rfl
  · intro f hf hc
    exact hc.1 (hself f hf hc.2)

theorem getNested_self_reference_terminates_witness :
    getNestedAux sEnv gtag sepDot 1 (.strukt "Node".data) [] =
      some (Get sEnv gtag (.strukt "Node".data)) :=
  getNested_self_reference_terminates sEnv gtag sepDot (.strukt "Node".data) 0 (by decide)

/-- C3: the key of any instruction produced by parsing never contains
`'='` (each parsed key comes from some raw directive), the value of a
normalized directive that contained no `'='` is the literal `"true"`, and
otherwise the value is the trimmed substring after the first `'='`. -/
theorem instruction_key_value_contract :
    ∀ (tg : Str) (f : StructField),
      (∀ ins ∈ keys (GetFromField tg f),
        ('=' ∈ Instruction.Key ins → False)
        ∧ ∃ d, d ∈ splitOnChar ';' (tagGet f.tags tg) ∧ ins = normalize d)
      ∧ (∀ d : Str, ('=' ∈ d → False) → Instruction.Value (normalize d) = "true".data)
      ∧ (∀ (d k v : Str), splitFirst '=' d = (k, some v) →
          Instruction.Value (normalize d) = trimSpace v) := by
  intro tg f
  refine ⟨?_, fun d hd => value_default_true hd, fun d k v h => value_after_eq h⟩
  intro ins hins
  obtain ⟨d, hd, he, _⟩ := GetFromField_keys_sound hins
  exact ⟨fun hc => key_not_mem_eq ins hc, d, hd, he⟩

theorem instruction_key_value_contract_witness :
    Instruction.Value (normalize "preload".data) = "true".data :=
  (instruction_key_value_contract [] ⟨[], .base [], []⟩).2.1 "preload".data (by decide)

/-- C4: parsing never records an instruction whose normalized string is
empty, whitespace-only (or absent) raw tag text yields the empty index,
and directives emptied by stray `';'` separators are silently dropped
while the others are kept. -/
theorem parse_drops_only_empty_directives :
    ∀ (tg : Str) (f : StructField),
      (∀ ins ∈ keys (GetFromField tg f), ins ≠ [])
      ∧ ((tagGet f.tags tg).all goIsSpace = true → GetFromField tg f = [])
      ∧ (∀ (nm : Str) (ty : GoType),
          GetFromField tg ⟨nm, ty, [(tg, "a=1;;b=2".data)]⟩ =
            [("a=1".data, [nm]), ("b=2".data, [nm])]) := by
  intro tg f
  refine ⟨?_, ?_, ?_⟩
  · intro ins hins
    obtain ⟨_, _, _, hne⟩ := GetFromField_keys_sound hins
    exact hne
  · intro hws
    unfold GetFromField
    by_cases hr : tagGet f.tags tg = []
    · rw [if_pos hr]
    · rw [if_neg hr]
      refine parseFold_all_empty ?_
      intro d hd
      have hall : ∀ a ∈ d, goIsSpace a = true := by
        intro a ha
        exact (List.all_eq_true.mp hws) a (mem_of_mem_splitOnChar hd ha)
      have hne : '=' ∉ d := by
        intro hc
        exact absurd (hall '=' hc) (by decide)
      rw [normalize, splitFirst_of_not_mem hne]
      exact trimSpace_eq_nil hall
  · intro nm ty
    rw [GetFromField_single_tag]
    rfl

theorem parse_drops_only_empty_directives_witness :
    GetFromField gtag ⟨"F".data, .base "string".data, [(gtag, "   ".data)]⟩ = [] :=
  (parse_drops_only_empty_directives gtag
    ⟨"F".data, .base "string".data, [(gtag, "   ".data)]⟩).2.1 (by decide)

/-- C5: the type walker unwraps one pointer, then one slice, then one
pointer inside the slice, so `T`, `*T`, `[]T` and `[]*T` all reach `T`
for any unwrapped `T`; a descriptor with no wrapping of its own
(including non-structured ones) passes through unchanged. -/
theorem typeToElem_unwraps_one_level :
    ∀ T : GoType, isUnwrapped T = true →
      typeToElem T = T ∧ typeToElem (.ptr T) = T ∧ typeToElem (.slice T) = T ∧
        typeToElem (.slice (.ptr T)) = T := by
  intro T hT
  cases T with
  | base n => exact ⟨rfl, rfl, rfl, rfl⟩
  | strukt n => exact ⟨rfl, rfl, rfl, rfl⟩
  | ptr t => simp [isUnwrapped] at hT
  | slice t => simp [isUnwrapped] at hT

theorem typeToElem_unwraps_one_level_witness :
    typeToElem (.slice (.ptr (.strukt "User".data))) = .strukt "User".data :=
  (typeToElem_unwraps_one_level (.strukt "User".data) rfl).2.2.2

/-- C6: parsing is idempotent on normalized instructions: every
instruction recorded by the parser re-normalizes to itself, and feeding
it back through the parser as the entire raw tag of a field yields
exactly that instruction mapped to that field. -/
theorem parse_idempotent_on_normalized :
    ∀ (tg : Str) (f : StructField) (ins : Str), ins ∈ keys (GetFromField tg f) →
      normalize ins = ins
      ∧ ∀ (tg2 nm : Str) (ty : GoType),
          GetFromField tg2 ⟨nm, ty, [(tg2, ins)]⟩ = [(ins, [nm])] := by
  intro tg f ins hins
  obtain ⟨d, hd, he, hne⟩ := GetFromField_keys_sound hins
  have hsemi : ';' ∉ ins := by
    intro hc
    rw [he] at hc
    rcases mem_normalize hc with h | h
    · exact not_mem_of_mem_splitOnChar hd h
    · exact absurd h (by decide)
  have hid : normalize ins = ins := by rw [he, normalize_idem]
  refine ⟨hid, ?_⟩
  intro tg2 nm ty
  rw [GetFromField_single_tag, if_neg hne, splitOnChar_of_not_mem hsemi]
  show parseStep nm [] ins = _
  unfold parseStep
  rw [hid, if_neg hne]
  rfl

theorem parse_idempotent_on_normalized_witness :
    normalize "preload=true".data = "preload=true".data :=
  (parse_idempotent_on_normalized gtag
    ⟨"F".data, .base "string".data, [(gtag, " preload = true ".data)]⟩
    "preload=true".data (by decide)).1

/-- C7: the bulk-apply trace is the concatenation, in mapping order, of
one invocation per field name in list order for each mapping instruction
present in the index, and nothing for an instruction absent from the
index; index keys absent from the mapping contribute nothing. -/
theorem apply_invokes_per_field_in_order :
    ∀ {α : Type} (inst : Instructions) (mapping : List (Str × α)),
      Apply inst mapping =
        (mapping.map (fun p => (ApplyOne p.1 inst).map (fun f => (p.2, f)))).flatten
      ∧ ∀ ins, lookup? inst ins = none → ApplyOne ins inst = [] := by
  intro α inst mapping
  constructor
  · rw [Apply, applyFold_eq]
    rfl
  · intro ins h
    unfold ApplyOne
    rw [h]

theorem apply_invokes_per_field_in_order_witness :
    Apply (Get exEnv gtag (.strukt "MyModel".data))
        [("preload=true".data, 0), ("missing".data, 1)] =
      [(0, "Field1".data), (0, "Field3".data)] := by
  rw [(apply_invokes_per_field_in_order
        (Get exEnv gtag (.strukt "MyModel".data))
        [("preload=true".data, 0), ("missing".data, 1)]).1]
  decide

/-- C8: the membership query equals key membership in the freshly
computed flat index, and in particular an instruction carried only by a
nested field (present in the nested index) is reported absent. -/
theorem has_iff_flat_key :
    (∀ (env : TypeEnv) (tg : Str) (T : GoType) (ins : Str),
        Has env tg T ins = true ↔ ins ∈ keys (Get env tg T))
    ∧ Has exEnv gtag (.strukt "MyModel".data) "otherOption=value2".data = false
    ∧ ∃ res, GetNested exEnv gtag 2 (.strukt "MyModel".data) sepDot = some res
        ∧ "otherOption=value2".data ∈ keys res := by
  refine ⟨?_, by decide,
    ⟨[("preload=true".data, ["Field1".data, "Field3".data]),
      ("otherOption=value".data, ["Field1".data]),
      ("otherOption=value2".data, ["Field3.Subfield1".data])], by decide, by decide⟩⟩
  intro env tg T ins
  unfold Has
  rw [mem_keys_iff_lookup]

theorem has_iff_flat_key_witness :
    Has exEnv gtag (.strukt "MyModel".data) "preload=true".data = true :=
  (has_iff_flat_key.1 exEnv gtag (.strukt "MyModel".data) "preload=true".data).mpr
    (by decide)

/-- C9: a key present in an index produced by `GetFromField`, `Get` or
`GetNested` always maps to a non-empty field list, so a matching
dispatch invokes its action at least once. -/
theorem index_values_nonempty :
    ∀ (env : TypeEnv) (tg sep : Str) (fuel : Nat) (T : GoType) (fld : StructField)
      (ins : Str) (fs : List Str),
      (lookup? (GetFromField tg fld) ins = some fs → fs ≠ [])
      ∧ (lookup? (Get env tg T) ins = some fs → fs ≠ [])
      ∧ (∀ res, GetNested env tg fuel T sep = some res →
          lookup? res ins = some fs → fs ≠ []) := by
  intro env tg sep fuel T fld ins fs
  refine ⟨fun h => ?_, fun h => ?_, fun res hres h => ?_⟩
  · exact GetFromField_entries_ne tg fld _ (lookup?_mem h)
  · exact Get_entries_ne env tg T _ (lookup?_mem h)
  · exact getNestedAux_entries_ne env tg sep fuel T [] res hres _ (lookup?_mem h)

theorem index_values_nonempty_witness :
    lookup? (Get exEnv gtag (.strukt "MyModel".data)) "preload=true".data =
      some ["Field1".data, "Field3".data]
    ∧ (["Field1".data, "Field3".data] : List Str) ≠ [] :=
  ⟨by decide,
   (index_values_nonempty exEnv gtag sepDot 1 (.strukt "MyModel".data)
      ⟨[], .base [], []⟩ "preload=true".data
      ["Field1".data, "Field3".data]).2.1 (by decide)⟩

/-- C10: a directive with an empty key but a non-empty value is not
dropped: `"=value"` (even written `" = value "`) parses to the
instruction `"=value"` whose key is empty and whose value is `"value"`;
in general every directive whose normalized form is non-empty is
recorded. -/
theorem empty_key_directive_kept :
    ∀ (tg nm : Str) (ty : GoType) (tags : List (Str × Str)),
      (∀ d ∈ splitOnChar ';' (tagGet tags tg), normalize d ≠ [] →
        normalize d ∈ keys (GetFromField tg ⟨nm, ty, tags⟩))
      ∧ GetFromField tg ⟨nm, ty, [(tg, "=value".data)]⟩ = [("=value".data, [nm])]
      ∧ Instruction.Key "=value".data = []
      ∧ Instruction.Value "=value".data = "value".data
      ∧ GetFromField tg ⟨nm, ty, [(tg, " = value ".data)]⟩ = [("=value".data, [nm])] := by
  intro tg nm ty tags
  refine ⟨?_, ?_, by decide, by decide, ?_⟩
  · intro d hd hne
    exact GetFromField_keys_complete hd hne
  · rw [GetFromField_single_tag]
    rfl
  · rw [GetFromField_single_tag]
    rfl

theorem empty_key_directive_kept_witness :
    "=value".data ∈
      keys (GetFromField gtag ⟨"F".data, .base [], [(gtag, "=value".data)]⟩) :=
  (empty_key_directive_kept gtag "F".data (.base []) [(gtag, "=value".data)]).1
    "=value".data (by decide) (by decide)

end Tago
